import Mathlib

/-!
Shallow embedding of `sitator.site_descriptors.SOAP.SOAPDescriptorAverages`
(file `src/sitator/site_descriptors/SOAP.py`), the trajectory descriptor
averaging engine: occupancy counting, averaging planning, the streaming
accumulation pass and the output assembly of `_get_descriptors`, together
with the keyword validation of `__init__`.

The external SOAP backend (`soaper`) is abstracted to its interface: every
mobile entity in every frame carries the raw feature vector the backend
would return for it at that frame.  Machine floats are modelled as exact
rationals.  The numpy fancy-indexing statements of the source
(`counts[frame] += 1`, `descs[idx_to_add_desc] += soaps`,
`count_of_site[sites_to_describe] += 1`) gather from the array as it is at
the start of the statement and scatter back, so a duplicate index performs
a single addition and the last duplicate wins; the source comments on this
explicitly at the counting site.  The folds below read the frame-start
array (`orig`/`c`) for exactly that reason.
-/

/-- A raw feature vector: one row produced by the external descriptor
engine, of length `n_dim`. -/
abbrev Vec := List ℚ

/-- One sampled trajectory frame: for every mobile entity, its site
assignment (`none` models the `SiteTrajectory.SITE_UNKNOWN` sentinel,
which the counting pass sends to the extra slot `counts[-1]` that is then
dropped) and the raw feature vector the descriptor engine returns for that
entity at this frame. -/
abbrev Frame := List (Option ℕ × Vec)

/-- Elementwise vector addition (`descs[i] += soap`). -/
def vadd (a b : Vec) : Vec := List.zipWith (fun x y => x + y) a b

/-- Elementwise division of a vector by a natural number
(`soaps /= averagings[sites_to_describe]`). -/
def vdiv (v : Vec) (n : ℕ) : Vec := v.map (fun x => x / (n : ℚ))

/-- The zero vector of dimension `ndim` (a fresh row of `np.zeros`). -/
def vzero (ndim : ℕ) : Vec := List.replicate ndim (0 : ℚ)

/-- Sum of a list of vectors, starting from the zero vector, in list
order (mirrors the chronological accumulation into one output slot). -/
def vsum (ndim : ℕ) (l : List Vec) : Vec := l.foldl vadd (vzero ndim)

/-- The raw feature vectors of the entities assigned to site `s` in one
frame, in entity order. -/
def entitiesAt (fr : Frame) (s : ℕ) : List Vec :=
  fr.filterMap (fun q => if q.1 = some s then some q.2 else none)

/-- Whether at least one entity of the frame is assigned to site `s`. -/
def frameOccupies (fr : Frame) (s : ℕ) : Bool := fr.any (fun q => q.1 == some s)

/-- The raw feature vector of the last entity assigned to `s` in the
frame, if any: the vector that a numpy scatter-add with duplicate indices
actually stores for site `s`. -/
def frameLastVec : Frame → ℕ → Option Vec
  | [], _ => none
  | q :: fr, s =>
    match frameLastVec fr s with
    | some v => some v
    | none => if q.1 = some s then some q.2 else none

/-- Chronological list of the raw vectors the engine accumulates for site
`s`: one per sampled frame in which `s` is occupied (the last duplicate of
the frame). -/
def frameRaws (frames : List Frame) (s : ℕ) : List Vec :=
  frames.flatMap (fun fr => (frameLastVec fr s).toList)

/-- Chronological list of raw vectors of all (entity, frame) pairs
assigned to site `s`; this is the reading of "raw feature vectors" used by
the spec text, which counts duplicates within a frame independently. -/
def pairRaws (frames : List Frame) (s : ℕ) : List Vec :=
  frames.flatMap (fun fr => entitiesAt fr s)

/-- Number of (entity, frame) pairs assigned to site `s`: the per-pair
occupancy total that the spec text describes. -/
def pairCount (frames : List Frame) (s : ℕ) : ℕ := (pairRaws frames s).length

/-- One step of the counting pass: `counts[frame] += 1`.  The gather reads
the frame-start array `c`, so duplicate sites within one frame cause a
single addition (as the source comment states). -/
def countFrame (c : ℕ → ℕ) (fr : Frame) : ℕ → ℕ :=
  (fr.filterMap Prod.fst).foldl (fun acc s => Function.update acc s (c s + 1)) c

/-- The occupancy counter: per-site counts over the sampled frames
(`for frame in site_traj: counts[frame] += 1`, unknown sentinel dropped
with the final `counts[:-1]`). -/
def countsOf (frames : List Frame) : ℕ → ℕ := frames.foldl countFrame (fun _ => 0)

/-- The two mutually exclusive averaging configuration modes
(`averaging` and `avg_descriptors_per_site`), already validated as
positive integers by `__init__`; natural-number payloads. -/
inductive AvgMode where
  | averaging (w : ℕ)
  | avgDescriptorsPerSite (t : ℕ)

/-- Sum of `f` over `0, ..., n-1` (numpy `np.sum` over a length-`n`
array). -/
def listSum (n : ℕ) (f : ℕ → ℕ) : ℕ := ((List.range n).map f).sum

/-- The divisor before clamping: the given `averaging`, or
`int(np.floor(np.mean(counts) / avg_descriptors_per_site))` computed in
exact arithmetic. -/
def rawAveragingOf (nsit : ℕ) (counts : ℕ → ℕ) : AvgMode → ℕ
  | AvgMode.averaging w => w
  | AvgMode.avgDescriptorsPerSite t =>
    ⌊((listSum nsit counts : ℚ) / (nsit : ℚ)) / (t : ℚ)⌋₊

/-- The effective divisor: `if averaging == 0: averaging = 1`. -/
def averagingOf (nsit : ℕ) (counts : ℕ → ℕ) (m : AvgMode) : ℕ :=
  if rawAveragingOf nsit counts m = 0 then 1 else rawAveragingOf nsit counts m

/-- Whether the non-fatal clamping warning
("Asking for too many average descriptors per site ...") is logged. -/
def clampWarningOf (nsit : ℕ) (counts : ℕ → ℕ) (m : AvgMode) : Bool :=
  decide (rawAveragingOf nsit counts m = 0)

/-- Planned number of output vectors per site:
`nr_of_descs = np.maximum(counts // averaging, 1)`. -/
def nr_of_descs (counts : ℕ → ℕ) (averaging : ℕ) (s : ℕ) : ℕ :=
  max (counts s / averaging) 1

/-- Per-site divisor: the global `averaging`, replaced by `counts[site]`
for insufficiently occupied sites (`averagings[insufficient] =
counts[insufficient]`). -/
def averagings (counts : ℕ → ℕ) (averaging : ℕ) (s : ℕ) : ℕ :=
  if counts s / averaging = 0 then counts s else averaging

/-- Whether the non-fatal insufficiency warning
("... sites are insufficiently occupied") is logged. -/
def insufficientWarningOf (nsit : ℕ) (counts : ℕ → ℕ) (averaging : ℕ) : Bool :=
  (List.range nsit).any (fun s => counts s / averaging == 0)

/-- Initial output slot of site `s`:
`desc_index = [np.sum(nr_of_descs[:i]) for i in range(len(nr_of_descs))]`. -/
def desc_index_init (p : ℕ → ℕ) (s : ℕ) : ℕ := listSum s p

/-- One-past-the-last output slot of site `s`:
`max_index = [np.sum(nr_of_descs[:i+1]) for i in range(len(nr_of_descs))]`. -/
def max_index (p : ℕ → ℕ) (s : ℕ) : ℕ := listSum (s + 1) p

/-- The label array: `np.repeat(list(range(nsit)), nr_of_descs)`. -/
def desc_to_site (nsit : ℕ) (p : ℕ → ℕ) : List ℕ :=
  (List.range nsit).flatMap (fun s => List.replicate (p s) s)

/-- Mutable state of the streaming accumulation pass. -/
structure AccState where
  descs : List Vec
  desc_index : ℕ → ℕ
  count_of_site : ℕ → ℕ
  allowed : ℕ → Bool

/-- The entities selected for description in one frame, with their sites:
`to_describe = (site_traj_t != SITE_UNKNOWN) & allowed[site_traj_t]`,
paired with the soap vectors the backend returns for them. -/
def describedOf (alw : ℕ → Bool) (fr : Frame) : List (ℕ × Vec) :=
  fr.filterMap (fun q =>
    match q.1 with
    | some s => if alw s then some (s, q.2) else none
    | none => none)

/-- Scatter core of `descs[idx_to_add_desc] += soaps` with accumulator
`dsc`: each selected entity stores `orig[idx] + soap/averaging` at its
slot; the gather reads the frame-start array `orig`, so for duplicate
indices the last entity wins. -/
def scatterDescsAux (orig : List Vec) (ix av : ℕ → ℕ) (dsc : List Vec) :
    List (ℕ × Vec) → List Vec
  | [] => dsc
  | q :: l =>
    scatterDescsAux orig ix av
      (dsc.set (ix q.1) (vadd (orig.getD (ix q.1) []) (vdiv q.2 (av q.1)))) l

/-- `descs[idx_to_add_desc] += soaps` (after `soaps /= averagings[...]`). -/
def scatterDescs (orig : List Vec) (ix av : ℕ → ℕ) (l : List (ℕ × Vec)) : List Vec :=
  scatterDescsAux orig ix av orig l

/-- Scatter core of `count_of_site[sites_to_describe] += 1`, gathering
from the frame-start array `orig`. -/
def scatterCountsAux (orig : ℕ → ℕ) (c : ℕ → ℕ) : List (ℕ × Vec) → ℕ → ℕ
  | [] => c
  | q :: l => scatterCountsAux orig (Function.update c q.1 (orig q.1 + 1)) l

/-- `count_of_site[sites_to_describe] += 1`. -/
def scatterCounts (orig : ℕ → ℕ) (l : List (ℕ × Vec)) : ℕ → ℕ :=
  scatterCountsAux orig orig l

/-- The body of the accumulation loop for one frame: describe and
accumulate the selected entities, then advance the slot of every site
whose window is complete (`full_average`) and retire every site whose
slot index reached its `max_index`. -/
def processFrame (av mx : ℕ → ℕ) (st : AccState) (fr : Frame) : AccState :=
  let described := describedOf st.allowed fr
  let descs1 := scatterDescs st.descs st.desc_index av described
  let count1 := scatterCounts st.count_of_site described
  let descIndex1 : ℕ → ℕ :=
    fun s => if count1 s = av s then st.desc_index s + 1 else st.desc_index s
  let count2 : ℕ → ℕ := fun s => if count1 s = av s then 0 else count1 s
  let allowed1 : ℕ → Bool := fun s => if mx s = descIndex1 s then false else st.allowed s
  { descs := descs1, desc_index := descIndex1, count_of_site := count2, allowed := allowed1 }

/-- The state at the start of the accumulation pass: zeroed output rows,
initial slot indices, zero fills, all sites allowed. -/
def initState (nsit ndim : ℕ) (p : ℕ → ℕ) : AccState :=
  { descs := List.replicate (listSum nsit p) (vzero ndim)
    desc_index := desc_index_init p
    count_of_site := fun _ => 0
    allowed := fun _ => true }

/-- The effective divisor for a run (`averaging` after planning and
clamping). -/
def planAveraging (nsit : ℕ) (m : AvgMode) (frames : List Frame) : ℕ :=
  averagingOf nsit (countsOf frames) m

/-- The per-site divisors of a run. -/
def planAveragings (nsit : ℕ) (m : AvgMode) (frames : List Frame) : ℕ → ℕ :=
  averagings (countsOf frames) (planAveraging nsit m frames)

/-- The per-site planned output counts of a run. -/
def planNr (nsit : ℕ) (m : AvgMode) (frames : List Frame) : ℕ → ℕ :=
  nr_of_descs (countsOf frames) (planAveraging nsit m frames)

/-- The accumulator state after the whole accumulation pass. -/
def finalStateOf (nsit ndim : ℕ) (m : AvgMode) (frames : List Frame) : AccState :=
  frames.foldl
    (processFrame (planAveragings nsit m frames) (max_index (planNr nsit m frames)))
    (initState nsit ndim (planNr nsit m frames))

/-- `_get_descriptors` on the already stride-selected frames: count, plan,
accumulate, check `assert not np.any(allowed)` (modelled as an error
result rather than an AssertionError) and assemble the output pair. -/
def getDescriptorsCore (nsit ndim : ℕ) (m : AvgMode) (frames : List Frame) :
    Except String (List Vec × List ℕ) :=
  let fin := finalStateOf nsit ndim m frames
  if (List.range nsit).all (fun s => ! fin.allowed s) then
    Except.ok (fin.descs, desc_to_site nsit (planNr nsit m frames))
  else
    Except.error "not all sites were exhausted after the final frame"

/-- Python slicing `[::stepsize]`: the elements whose index is a multiple
of the stride. -/
def strideSelect (k : ℕ) (frames : List Frame) : List Frame :=
  (frames.enum.filter (fun q => q.1 % k == 0)).map Prod.snd

/-- `_get_descriptors` including the stride applied to the trajectory
(the same `[::stepsize]` is applied to positions and site assignments). -/
def getDescriptors (nsit ndim : ℕ) (m : AvgMode) (stepsize : ℕ) (frames : List Frame) :
    Except String (List Vec × List ℕ) :=
  getDescriptorsCore nsit ndim m (strideSelect stepsize frames)

/-- Validated configuration produced by `__init__`: the mode with its
integer payload. -/
inductive CfgMode where
  | averaging (w : ℤ)
  | avgDescriptorsPerSite (t : ℤ)

/-- `SOAPDescriptorAverages.__init__` keyword validation: `none` models an
absent keyword.  In the source the non-integer case is a `TypeError`; with
integer payloads only the positivity check `v > 0` remains.  All failure
modes are collapsed into `Except.error` with the corresponding message. -/
def soapDescriptorAveragesInit (stepsize averaging avgDescriptorsPerSite : Option ℤ) :
    Except String (ℤ × CfgMode) :=
  if averaging.isSome && avgDescriptorsPerSite.isSome then
    Except.error "averaging and avg_descriptors_per_site cannot be specified at the same time."
  else
    let st := stepsize.getD 1
    match averaging, avgDescriptorsPerSite with
    | some w, _ =>
      if 0 < st then
        if 0 < w then Except.ok (st, CfgMode.averaging w)
        else Except.error "averaging has to be positive"
      else Except.error "stepsize has to be positive"
    | none, some t =>
      if 0 < st then
        if 0 < t then Except.ok (st, CfgMode.avgDescriptorsPerSite t)
        else Except.error "avg_descriptors_per_site has to be positive"
      else Except.error "stepsize has to be positive"
    | none, none =>
      Except.error "Either the averaging or avg_descriptors_per_site option must be provided."

/-- All site assignments of all frames are valid site ids or the unknown
sentinel. -/
def validSiteB (nsit : ℕ) : Option ℕ → Bool
  | some s => decide (s < nsit)
  | none => true

/-- Every assigned site id of the trajectory lies in `[0, nsit)`. -/
def ValidAssign (nsit : ℕ) (frames : List Frame) : Prop :=
  ∀ fr ∈ frames, ∀ q ∈ fr, validSiteB nsit q.1 = true

/-- No frame assigns two entities to the same site. -/
def NodupSites (nsit : ℕ) (frames : List Frame) : Prop :=
  ∀ fr ∈ frames, ∀ s, s < nsit → (entitiesAt fr s).length ≤ 1

/-- The vector of the last element of `l` with site `s`, if any. -/
def lastVecOf (s : ℕ) : List (ℕ × Vec) → Option Vec
  | [] => none
  | q :: l =>
    match lastVecOf s l with
    | some v => some v
    | none => if q.1 = s then some q.2 else none

/-- Per-site bookkeeping invariant of the accumulation pass: the slot
index, fill and activity flag of one site as a function of the divisor
`dv`, planned count `pl`, initial slot `bs`, number `t` of processed
frames and occupancy `o` of the site among them. -/
def Book (dv pl bs t o idx cnt : ℕ) (alw : Bool) : Prop :=
  if dv = 0 then
    idx = (if t = 0 then bs else bs + t) ∧ cnt = 0 ∧ alw = decide (t = 0)
  else if o < pl * dv then
    idx = bs + o / dv ∧ cnt = o % dv ∧ alw = true
  else
    idx = bs + pl ∧ cnt = 0 ∧ alw = false

/-- The value output slot `j` of a site must hold after some prefix of the
pass: the sum of the `dv` raw vectors of its window (each divided by
`dv`), restricted to the raw vectors supplied so far. -/
def windowVal (ndim dv : ℕ) (raws : List Vec) (j : ℕ) : Vec :=
  vsum ndim (((raws.drop (j * dv)).take dv).map (fun v => vdiv v dv))

/-- Global invariant of the accumulation pass after processing the frame
prefix `pre`: the output array keeps its allocated length, every site
satisfies its bookkeeping invariant, and every output slot holds the value
determined by the raw vectors supplied so far. -/
def GInv (nsit ndim : ℕ) (dv pl : ℕ → ℕ) (pre : List Frame) (st : AccState) : Prop :=
  st.descs.length = listSum nsit pl ∧
  (∀ s, s < nsit →
    Book (dv s) (pl s) (desc_index_init pl s) pre.length (countsOf pre s)
      (st.desc_index s) (st.count_of_site s) (st.allowed s)) ∧
  (∀ s, s < nsit → ∀ j, j < pl s →
    st.descs.getD (desc_index_init pl s + j) [] = windowVal ndim (dv s) (frameRaws pre s) j)

/-! ## Basic lemmas about sums, vectors and frames -/

theorem listSum_succ (n : ℕ) (f : ℕ → ℕ) : listSum (n + 1) f = listSum n f + f n := by
  simp [listSum, List.range_succ]

theorem listSum_le (f : ℕ → ℕ) (m n : ℕ) (h : m ≤ n) : listSum m f ≤ listSum n f := by
  induction n with
  | zero => rw [Nat.le_zero.mp h]
  | succ n ih =>
    rcases Nat.lt_succ_iff_lt_or_eq.mp (Nat.lt_succ_of_le h) with h' | h'
    · exact Nat.le_trans (ih (Nat.lt_succ_iff.mp h'))
        (by rw [listSum_succ]; exact Nat.le_add_right _ _)
    · rw [h']

theorem getD_set_self : ∀ (l : List Vec) (r : ℕ) (a : Vec), r < l.length →
    (l.set r a).getD r [] = a := by
  intro l
  induction l with
  | nil => intro r a h; simp at h
  | cons x l ih =>
    intro r a h
    cases r with
    | zero => simp
    | succ r =>
      simp only [List.set_cons_succ, List.getD_cons_succ]
      exact ih r a (by simpa using h)

theorem getD_set_ne : ∀ (l : List Vec) (r r' : ℕ) (a : Vec), r ≠ r' →
    (l.set r a).getD r' [] = l.getD r' [] := by
  intro l
  induction l with
  | nil => intro r r' a _; simp
  | cons x l ih =>
    intro r r' a h
    cases r with
    | zero =>
      cases r' with
      | zero => exact absurd rfl h
      | succ r' => simp
    | succ r =>
      cases r' with
      | zero => simp
      | succ r' =>
        simp only [List.set_cons_succ, List.getD_cons_succ]
        exact ih r r' a (fun he => h (by rw [he]))

theorem getD_replicate : ∀ (n r : ℕ) (a : Vec), r < n →
    (List.replicate n a).getD r [] = a := by
  intro n
  induction n with
  | zero => intro r a h; simp at h
  | succ n ih =>
    intro r a h
    cases r with
    | zero => simp
    | succ r =>
      simp only [List.replicate_succ, List.getD_cons_succ]
      exact ih r a (by simpa using h)

theorem vsum_nil (ndim : ℕ) : vsum ndim [] = vzero ndim := rfl

theorem vsum_snoc (ndim : ℕ) (l : List Vec) (v : Vec) :
    vsum ndim (l ++ [v]) = vadd (vsum ndim l) v := by
  simp [vsum, List.foldl_append]

theorem vdiv_vadd (n : ℕ) : ∀ (a b : Vec), vdiv (vadd a b) n = vadd (vdiv a n) (vdiv b n) := by
  intro a
  induction a with
  | nil => intro b; rfl
  | cons x a ih =>
    intro b
    cases b with
    | nil => rfl
    | cons y b =>
      have h2 := ih b
      simp only [vadd, vdiv] at h2 ⊢
      simp [h2, add_div]

theorem vdiv_vzero (ndim n : ℕ) : vdiv (vzero ndim) n = vzero ndim := by
  simp [vdiv, vzero]

theorem foldl_vadd_vdiv (n : ℕ) : ∀ (l : List Vec) (acc : Vec),
    (l.map (fun v => vdiv v n)).foldl vadd (vdiv acc n) = vdiv (l.foldl vadd acc) n := by
  intro l
  induction l with
  | nil => intro acc; rfl
  | cons v l ih =>
    intro acc
    simp only [List.map_cons, List.foldl_cons]
    rw [← vdiv_vadd, ih]

theorem vsum_map_vdiv (ndim n : ℕ) (l : List Vec) :
    vsum ndim (l.map (fun v => vdiv v n)) = vdiv (vsum ndim l) n := by
  have h := foldl_vadd_vdiv n l (vzero ndim)
  rw [vdiv_vzero] at h
  exact h

theorem frameOccupies_iff (fr : Frame) (s : ℕ) :
    frameOccupies fr s = true ↔ ∃ q ∈ fr, q.1 = some s := by
  simp [frameOccupies, List.any_eq_true]

theorem entitiesAt_eq_nil_iff (fr : Frame) (s : ℕ) :
    entitiesAt fr s = [] ↔ ∀ q ∈ fr, q.1 ≠ some s := by
  constructor
  · intro h q hq he
    have : q.2 ∈ entitiesAt fr s := by
      simp only [entitiesAt, List.mem_filterMap]
      exact ⟨q, hq, by rw [if_pos he]⟩
    rw [h] at this
    simp at this
  · intro h
    rw [entitiesAt, List.filterMap_eq_nil_iff]
    intro q hq
    rw [if_neg (h q hq)]

theorem frameOccupies_false_iff (fr : Frame) (s : ℕ) :
    frameOccupies fr s = false ↔ entitiesAt fr s = [] := by
  rw [entitiesAt_eq_nil_iff, ← Bool.not_eq_true, frameOccupies_iff]
  constructor
  · intro h q hq he; exact h ⟨q, hq, he⟩
  · rintro h ⟨q, hq, he⟩; exact h q hq he

theorem frameLastVec_cons (q : Option ℕ × Vec) (fr : Frame) (s : ℕ) :
    frameLastVec (q :: fr) s =
      match frameLastVec fr s with
      | some v => some v
      | none => if q.1 = some s then some q.2 else none := rfl

theorem entitiesAt_cons (q : Option ℕ × Vec) (fr : Frame) (s : ℕ) :
    entitiesAt (q :: fr) s = (if q.1 = some s then [q.2] else []) ++ entitiesAt fr s := by
  rw [entitiesAt, List.filterMap_cons]
  by_cases hq : q.1 = some s
  · rw [if_pos hq, if_pos hq]; rfl
  · rw [if_neg hq, if_neg hq]; rfl

theorem frameLastVec_none_iff : ∀ (fr : Frame) (s : ℕ),
    frameLastVec fr s = none ↔ entitiesAt fr s = [] := by
  intro fr s
  induction fr with
  | nil => simp [frameLastVec, entitiesAt]
  | cons q fr ih =>
    rw [frameLastVec_cons, entitiesAt_cons]
    cases h : frameLastVec fr s with
    | some v =>
      simp only []
      constructor
      · intro hc; cases hc
      · intro hc
        have h2 : entitiesAt fr s = [] := (List.append_eq_nil.mp hc).2
        rw [← ih] at h2
        rw [h] at h2
        cases h2
    | none =>
      have hnil : entitiesAt fr s = [] := ih.mp h
      by_cases hq : q.1 = some s
      · simp [hq, hnil]
      · simp [hq, hnil]

/-! ## The occupancy counter -/

theorem foldl_update_mark (c : ℕ → ℕ) : ∀ (l : List ℕ) (acc : ℕ → ℕ) (s : ℕ),
    (l.foldl (fun a x => Function.update a x (c x + 1)) acc) s
      = if s ∈ l then c s + 1 else acc s := by
  intro l
  induction l with
  | nil => intro acc s; simp
  | cons x l ih =>
    intro acc s
    simp only [List.foldl_cons]
    rw [ih]
    by_cases hs : s ∈ l
    · rw [if_pos hs, if_pos (List.mem_cons_of_mem x hs)]
    · rw [if_neg hs]
      by_cases hx : s = x
      · rw [if_pos (by rw [hx]; exact List.mem_cons_self x l)]
        rw [Function.update_apply, if_pos hx, hx]
      · rw [if_neg (by intro hc; rcases List.mem_cons.mp hc with h | h; exact hx h; exact hs h)]
        rw [Function.update_apply, if_neg hx]

theorem mem_filterMap_fst_iff (fr : Frame) (s : ℕ) :
    s ∈ fr.filterMap Prod.fst ↔ frameOccupies fr s = true := by
  rw [frameOccupies_iff, List.mem_filterMap]

theorem countFrame_apply (c : ℕ → ℕ) (fr : Frame) (s : ℕ) :
    countFrame c fr s = if frameOccupies fr s then c s + 1 else c s := by
  rw [countFrame, foldl_update_mark]
  by_cases h : frameOccupies fr s = true
  · rw [if_pos ((mem_filterMap_fst_iff fr s).mpr h), if_pos h]
  · rw [if_neg (fun hc => h ((mem_filterMap_fst_iff fr s).mp hc))]
    rw [if_neg (by simpa using h)]

theorem countsOf_aux : ∀ (frames : List Frame) (c : ℕ → ℕ) (s : ℕ),
    (frames.foldl countFrame c) s
      = c s + (frames.filter (fun fr => frameOccupies fr s)).length := by
  intro frames
  induction frames with
  | nil => intro c s; simp
  | cons fr frames ih =>
    intro c s
    simp only [List.foldl_cons]
    rw [ih, List.filter_cons]
    by_cases h : frameOccupies fr s = true
    · rw [if_pos h, countFrame_apply, if_pos h, List.length_cons]
      omega
    · rw [if_neg (by simpa using h), countFrame_apply, if_neg (by simpa using h)]

theorem countsOf_eq (frames : List Frame) (s : ℕ) :
    countsOf frames s = (frames.filter (fun fr => frameOccupies fr s)).length := by
  rw [countsOf, countsOf_aux]
  omega

theorem countsOf_append (l₁ l₂ : List Frame) (s : ℕ) :
    countsOf (l₁ ++ l₂) s = countsOf l₁ s + countsOf l₂ s := by
  simp [countsOf_eq, List.filter_append]

theorem countsOf_singleton (fr : Frame) (s : ℕ) :
    countsOf [fr] s = if frameOccupies fr s then 1 else 0 := by
  rw [countsOf_eq]
  by_cases h : frameOccupies fr s = true
  · rw [if_pos h]; simp [List.filter_cons, h]
  · rw [if_neg (by simpa using h)]
    simp only [List.filter_cons]
    rw [if_neg (by simpa using h)]
    simp

theorem countsOf_nil (s : ℕ) : countsOf [] s = 0 := rfl

theorem countsOf_eq_zero_iff (frames : List Frame) (s : ℕ) :
    countsOf frames s = 0 ↔ ∀ fr ∈ frames, frameOccupies fr s = false := by
  rw [countsOf_eq, List.length_eq_zero, List.filter_eq_nil_iff]
  constructor
  · intro h fr hfr; simpa using h fr hfr
  · intro h fr hfr; simp [h fr hfr]

theorem countsOf_pos_ne_nil (frames : List Frame) (s : ℕ)
    (h : 0 < countsOf frames s) : frames ≠ [] := by
  intro hc
  rw [hc] at h
  simp [countsOf_nil] at h

/-! ## Raw vector bookkeeping -/

theorem frameRaws_nil (s : ℕ) : frameRaws [] s = [] := rfl

theorem frameRaws_append (l₁ l₂ : List Frame) (s : ℕ) :
    frameRaws (l₁ ++ l₂) s = frameRaws l₁ s ++ frameRaws l₂ s := by
  simp [frameRaws]

theorem frameRaws_singleton (fr : Frame) (s : ℕ) :
    frameRaws [fr] s = (frameLastVec fr s).toList := by
  simp [frameRaws]

theorem frameRaws_length (frames : List Frame) (s : ℕ) :
    (frameRaws frames s).length = countsOf frames s := by
  induction frames with
  | nil => rfl
  | cons fr frames ih =>
    have hcons : frameRaws (fr :: frames) s = frameRaws [fr] s ++ frameRaws frames s := by
      rw [← frameRaws_append]; rfl
    rw [hcons, List.length_append, frameRaws_singleton]
    have hcons2 : countsOf (fr :: frames) s = countsOf [fr] s + countsOf frames s := by
      rw [← countsOf_append]; rfl
    rw [hcons2, ih, countsOf_singleton]
    cases h : frameLastVec fr s with
    | some v =>
      have : frameOccupies fr s = true := by
        rw [← Bool.not_eq_false, frameOccupies_false_iff]
        intro hc
        rw [← frameLastVec_none_iff] at hc
        rw [h] at hc
        cases hc
      rw [if_pos this]
      simp
    | none =>
      have : frameOccupies fr s = false := (frameOccupies_false_iff fr s).mpr
        ((frameLastVec_none_iff fr s).mp h)
      rw [this]
      simp

theorem pairRaws_nil (s : ℕ) : pairRaws [] s = [] := rfl

theorem frameLastVec_of_singleton : ∀ (fr : Frame) (s : ℕ) (v : Vec),
    entitiesAt fr s = [v] → frameLastVec fr s = some v := by
  intro fr
  induction fr with
  | nil => intro s v h; simp [entitiesAt] at h
  | cons q fr ih =>
    intro s v h
    rw [entitiesAt_cons] at h
    rw [frameLastVec_cons]
    by_cases hq : q.1 = some s
    · rw [if_pos hq] at h
      have h1 : q.2 = v ∧ entitiesAt fr s = [] := by
        rcases List.cons_eq_cons.mp h with ⟨h2, h3⟩
        exact ⟨h2, h3⟩
      rw [(frameLastVec_none_iff fr s).mpr h1.2]
      simp [hq, h1.1]
    · rw [if_neg hq] at h
      simp only [List.nil_append] at h
      rw [ih s v h]

theorem pairRaws_eq_frameRaws (nsit : ℕ) (frames : List Frame) (s : ℕ)
    (hs : s < nsit) (hnd : NodupSites nsit frames) :
    pairRaws frames s = frameRaws frames s := by
  induction frames with
  | nil => rfl
  | cons fr frames ih =>
    have hnd' : NodupSites nsit frames := fun f hf => hnd f (List.mem_cons_of_mem fr hf)
    have ihe := ih hnd'
    have hcons : pairRaws (fr :: frames) s = entitiesAt fr s ++ pairRaws frames s := by
      simp [pairRaws]
    have hcons2 : frameRaws (fr :: frames) s = (frameLastVec fr s).toList ++ frameRaws frames s := by
      simp [frameRaws]
    rw [hcons, hcons2, ihe]
    have hlen : (entitiesAt fr s).length ≤ 1 := hnd fr (List.mem_cons_self fr frames) s hs
    cases he : entitiesAt fr s with
    | nil =>
      have : frameLastVec fr s = none := (frameLastVec_none_iff fr s).mpr he
      rw [this]
      rfl
    | cons v rest =>
      have hrest : rest = [] := by
        rw [he] at hlen
        cases rest with
        | nil => rfl
        | cons a t => simp at hlen
      subst hrest
      rw [frameLastVec_of_singleton fr s v he]
      rfl

/-! ## The described entities of one frame -/

theorem describedOf_cons (alw : ℕ → Bool) (q : Option ℕ × Vec) (fr : Frame) :
    describedOf alw (q :: fr) =
      (match q.1 with
       | some s => if alw s then [(s, q.2)] else []
       | none => []) ++ describedOf alw fr := by
  rw [describedOf, List.filterMap_cons]
  cases hq : q.1 with
  | none => simp [describedOf, hq]
  | some s =>
    by_cases ha : alw s
    · simp [describedOf, hq, ha]
    · simp [describedOf, hq, ha]

theorem mem_describedOf (alw : ℕ → Bool) (fr : Frame) (s : ℕ) (v : Vec) :
    (s, v) ∈ describedOf alw fr ↔ ((some s, v) ∈ fr ∧ alw s = true) := by
  rw [describedOf, List.mem_filterMap]
  constructor
  · rintro ⟨⟨a, w⟩, he, hfe⟩
    cases a with
    | none => cases hfe
    | some s' =>
      dsimp at hfe
      by_cases ha : alw s'
      · rw [if_pos ha] at hfe
        have h := Option.some.inj hfe
        injection h with h1 h2
        subst h1; subst h2
        exact ⟨he, ha⟩
      · rw [if_neg ha] at hfe; cases hfe
  · rintro ⟨he, ha⟩
    refine ⟨(some s, v), he, ?_⟩
    dsimp
    rw [if_pos ha]

theorem mem_describedOf_elim (alw : ℕ → Bool) (fr : Frame) (q : ℕ × Vec)
    (h : q ∈ describedOf alw fr) :
    (some q.1, q.2) ∈ fr ∧ alw q.1 = true ∧ frameOccupies fr q.1 = true := by
  obtain ⟨s, v⟩ := q
  have h1 := (mem_describedOf alw fr s v).mp h
  exact ⟨h1.1, h1.2, (frameOccupies_iff fr s).mpr ⟨(some s, v), h1.1, rfl⟩⟩

theorem mem_describedOf_sites (alw : ℕ → Bool) (fr : Frame) (s : ℕ) :
    s ∈ (describedOf alw fr).map Prod.fst ↔ (alw s = true ∧ frameOccupies fr s = true) := by
  simp only [List.mem_map]
  constructor
  · rintro ⟨q, hq, hfst⟩
    obtain ⟨s', v⟩ := q
    cases hfst
    have h1 := (mem_describedOf alw fr s' v).mp hq
    exact ⟨h1.2, (frameOccupies_iff fr s').mpr ⟨(some s', v), h1.1, rfl⟩⟩
  · rintro ⟨ha, ho⟩
    rcases (frameOccupies_iff fr s).mp ho with ⟨e, he, h1⟩
    refine ⟨(s, e.2), ?_, rfl⟩
    rw [mem_describedOf]
    refine ⟨?_, ha⟩
    have h2 : e = (some s, e.2) := by
      rw [← h1]
    rw [← h2]
    exact he

/-! ## Scatter semantics of the numpy fancy-indexed updates -/

theorem scatterCountsAux_apply (orig : ℕ → ℕ) : ∀ (l : List (ℕ × Vec)) (c : ℕ → ℕ) (s : ℕ),
    scatterCountsAux orig c l s = if s ∈ l.map Prod.fst then orig s + 1 else c s := by
  intro l
  induction l with
  | nil => intro c s; simp [scatterCountsAux]
  | cons q l ih =>
    intro c s
    rw [scatterCountsAux, ih]
    by_cases hs : s ∈ l.map Prod.fst
    · rw [if_pos hs, if_pos (by rw [List.map_cons]; exact List.mem_cons_of_mem _ hs)]
    · rw [if_neg hs]
      by_cases hx : s = q.1
      · rw [if_pos (by rw [List.map_cons, hx]; exact List.mem_cons_self _ _)]
        rw [Function.update_apply, if_pos hx, hx]
      · rw [if_neg (by
          rw [List.map_cons]
          intro hc
          rcases List.mem_cons.mp hc with h | h
          · exact hx h
          · exact hs h)]
        rw [Function.update_apply, if_neg hx]

theorem scatterCounts_apply (orig : ℕ → ℕ) (l : List (ℕ × Vec)) (s : ℕ) :
    scatterCounts orig l s = if s ∈ l.map Prod.fst then orig s + 1 else orig s := by
  rw [scatterCounts, scatterCountsAux_apply]

theorem scatterDescsAux_length (orig : List Vec) (ix av : ℕ → ℕ) :
    ∀ (l : List (ℕ × Vec)) (dsc : List Vec),
    (scatterDescsAux orig ix av dsc l).length = dsc.length := by
  intro l
  induction l with
  | nil => intro dsc; rfl
  | cons q l ih =>
    intro dsc
    rw [scatterDescsAux, ih, List.length_set]

theorem scatterDescs_length (orig : List Vec) (ix av : ℕ → ℕ) (l : List (ℕ × Vec)) :
    (scatterDescs orig ix av l).length = orig.length := by
  rw [scatterDescs, scatterDescsAux_length]

theorem lastVecOf_cons (s : ℕ) (q : ℕ × Vec) (l : List (ℕ × Vec)) :
    lastVecOf s (q :: l) =
      match lastVecOf s l with
      | some v => some v
      | none => if q.1 = s then some q.2 else none := rfl

theorem lastVecOf_none_of_not_mem (s : ℕ) : ∀ (l : List (ℕ × Vec)),
    (∀ q ∈ l, q.1 ≠ s) → lastVecOf s l = none := by
  intro l
  induction l with
  | nil => intro _; rfl
  | cons q l ih =>
    intro h
    rw [lastVecOf_cons, ih (fun q' hq' => h q' (List.mem_cons_of_mem q hq'))]
    rw [if_neg (h q (List.mem_cons_self q l))]

theorem scatterDescsAux_getD_ne (orig : List Vec) (ix av : ℕ → ℕ) (r : ℕ) :
    ∀ (l : List (ℕ × Vec)) (dsc : List Vec),
    (∀ q ∈ l, ix q.1 ≠ r) →
    (scatterDescsAux orig ix av dsc l).getD r [] = dsc.getD r [] := by
  intro l
  induction l with
  | nil => intro dsc _; rfl
  | cons q l ih =>
    intro dsc h
    rw [scatterDescsAux, ih _ (fun q' hq' => h q' (List.mem_cons_of_mem q hq'))]
    exact getD_set_ne _ _ _ _ (h q (List.mem_cons_self q l))

theorem scatterDescsAux_getD (orig : List Vec) (ix av : ℕ → ℕ) (r s : ℕ) :
    ∀ (l : List (ℕ × Vec)) (dsc : List Vec), dsc.length = orig.length →
    (∀ q ∈ l, ix q.1 = r ↔ q.1 = s) → r < orig.length →
    (scatterDescsAux orig ix av dsc l).getD r [] =
      (match lastVecOf s l with
       | none => dsc.getD r []
       | some v => vadd (orig.getD r []) (vdiv v (av s))) := by
  intro l
  induction l with
  | nil => intro dsc _ _ _; rfl
  | cons q l ih =>
    intro dsc hlen hiff hr
    rw [scatterDescsAux,
      ih _ (by rw [List.length_set]; exact hlen)
        (fun q' hq' => hiff q' (List.mem_cons_of_mem q hq')) hr]
    cases hl : lastVecOf s l with
    | some v => rw [lastVecOf_cons, hl]
    | none =>
      rw [lastVecOf_cons, hl]
      by_cases hq : q.1 = s
      · have hixr : ix q.1 = r := (hiff q (List.mem_cons_self q l)).mpr hq
        rw [hixr, if_pos hq]
        rw [getD_set_self _ _ _ (by rw [hlen]; exact hr)]
        show vadd (orig.getD r []) (vdiv q.2 (av q.1)) = vadd (orig.getD r []) (vdiv q.2 (av s))
        rw [hq]
      · have hixr : ix q.1 ≠ r := fun hc => hq ((hiff q (List.mem_cons_self q l)).mp hc)
        rw [if_neg hq]
        exact getD_set_ne _ _ _ _ hixr

theorem lastVecOf_describedOf (alw : ℕ → Bool) (s : ℕ) (ha : alw s = true) :
    ∀ (fr : Frame), lastVecOf s (describedOf alw fr) = frameLastVec fr s := by
  intro fr
  induction fr with
  | nil => rfl
  | cons q fr ih =>
    rw [describedOf_cons, frameLastVec_cons]
    cases hq : q.1 with
    | none =>
      cases h : frameLastVec fr s with
      | some v => simp only [List.nil_append]; rw [ih, h]
      | none => simp only [List.nil_append]; rw [ih, h]; simp [hq]
    | some s' =>
      dsimp only
      by_cases ha' : alw s'
      · rw [if_pos ha']
        cases h : frameLastVec fr s with
        | some v =>
          simp only [List.singleton_append]
          rw [lastVecOf_cons, ih, h]
        | none =>
          simp only [List.singleton_append]
          rw [lastVecOf_cons, ih, h]
          simp only [hq]
          by_cases hss : s' = s
          · rw [if_pos hss, if_pos (by rw [hss])]
          · rw [if_neg hss, if_neg (fun hc => hss (Option.some.inj hc))]
      · rw [if_neg ha']
        simp only [List.nil_append]
        cases h : frameLastVec fr s with
        | some v => rw [ih, h]
        | none =>
          rw [ih, h]
          have hne : some s' ≠ some s :=
            fun hc => ha' (by rw [Option.some.inj hc]; exact ha)
          show none = if some s' = some s then some q.2 else none
          rw [if_neg hne]

theorem lastVecOf_describedOf_none (alw : ℕ → Bool) (s : ℕ) (ha : alw s = false)
    (fr : Frame) : lastVecOf s (describedOf alw fr) = none := by
  apply lastVecOf_none_of_not_mem
  intro q hq hc
  have h1 := (mem_describedOf_elim alw fr q hq).2.1
  rw [hc] at h1
  rw [h1] at ha
  cases ha

theorem processFrame_descs (av mx : ℕ → ℕ) (st : AccState) (fr : Frame) :
    (processFrame av mx st fr).descs =
      scatterDescs st.descs st.desc_index av (describedOf st.allowed fr) := rfl

theorem processFrame_desc_index (av mx : ℕ → ℕ) (st : AccState) (fr : Frame) (s : ℕ) :
    (processFrame av mx st fr).desc_index s =
      (if scatterCounts st.count_of_site (describedOf st.allowed fr) s = av s
       then st.desc_index s + 1 else st.desc_index s) := rfl

theorem processFrame_count_of_site (av mx : ℕ → ℕ) (st : AccState) (fr : Frame) (s : ℕ) :
    (processFrame av mx st fr).count_of_site s =
      (if scatterCounts st.count_of_site (describedOf st.allowed fr) s = av s
       then 0 else scatterCounts st.count_of_site (describedOf st.allowed fr) s) := rfl

theorem processFrame_allowed (av mx : ℕ → ℕ) (st : AccState) (fr : Frame) (s : ℕ) :
    (processFrame av mx st fr).allowed s =
      (if mx s = (processFrame av mx st fr).desc_index s then false else st.allowed s) := rfl

/-! ## Per-site bookkeeping of the accumulation pass -/

theorem Book_step (dv pl bs t o idx cnt cnt1 : ℕ) (alw occ : Bool)
    (hd0occ : dv = 0 → occ = false)
    (hd0pl : dv = 0 → pl = 1)
    (hb : Book dv pl bs t o idx cnt alw)
    (hcnt1 : cnt1 = if (alw = true ∧ occ = true) then cnt + 1 else cnt) :
    Book dv pl bs (t + 1) (o + (if occ = true then 1 else 0))
      (if cnt1 = dv then idx + 1 else idx)
      (if cnt1 = dv then 0 else cnt1)
      (if bs + pl = (if cnt1 = dv then idx + 1 else idx) then false else alw) := by
  rw [Book] at hb
  rw [Book]
  by_cases hdv : dv = 0
  · rw [if_pos hdv] at hb ⊢
    obtain ⟨hidx, hcnt, halw⟩ := hb
    have hocc : occ = false := hd0occ hdv
    have hc1 : cnt1 = 0 := by
      rw [hcnt1, hcnt]
      rw [if_neg (fun h => by rw [hocc] at h; exact Bool.false_ne_true h.2)]
    have hfull : cnt1 = dv := by rw [hc1, hdv]
    rw [if_pos hfull, if_pos hfull]
    rw [if_neg (Nat.succ_ne_zero t)]
    cases t with
    | zero =>
      rw [if_pos rfl] at hidx
      refine ⟨by omega, rfl, ?_⟩
      have heq : bs + pl = idx + 1 := by rw [hidx, hd0pl hdv]
      rw [if_pos heq]
      simp
    | succ t' =>
      rw [if_neg (Nat.succ_ne_zero t')] at hidx
      refine ⟨by omega, rfl, ?_⟩
      have hne2 : ¬ (bs + pl = idx + 1) := by rw [hidx, hd0pl hdv]; omega
      rw [if_neg hne2, halw]
      simp
  · have hdvpos : 0 < dv := Nat.pos_of_ne_zero hdv
    rw [if_neg hdv] at hb ⊢
    by_cases ho : o < pl * dv
    · rw [if_pos ho] at hb
      obtain ⟨hidx, hcnt, halw⟩ := hb
      have hmodlt : o % dv < dv := Nat.mod_lt _ hdvpos
      have hdm := Nat.div_add_mod o dv
      have hdivlt : o / dv < pl := (Nat.div_lt_iff_lt_mul hdvpos).mpr ho
      cases occ with
      | false =>
        have hc1 : cnt1 = cnt := by
          rw [hcnt1, if_neg (fun h => Bool.false_ne_true h.2)]
        have hne : ¬ (cnt1 = dv) := by rw [hc1, hcnt]; omega
        rw [if_neg hne, if_neg hne]
        have hne2 : ¬ (bs + pl = idx) := by rw [hidx]; omega
        rw [if_neg hne2]
        have ho0 : (if (false : Bool) = true then 1 else 0) = 0 := by simp
        rw [ho0, Nat.add_zero, if_pos ho]
        exact ⟨hidx, by rw [hc1, hcnt], halw⟩
      | true =>
        have hc1 : cnt1 = o % dv + 1 := by
          rw [hcnt1, if_pos ⟨halw, rfl⟩, hcnt]
        have ho1 : (if (true : Bool) = true then 1 else 0) = 1 := by simp
        rw [ho1]
        by_cases hfull : cnt1 = dv
        · have heq : o % dv + 1 = dv := by rw [hc1] at hfull; omega
          have hdm1 : (o + 1) / dv = o / dv + 1 ∧ (o + 1) % dv = 0 := by
            apply (Nat.div_mod_unique hdvpos).mpr
            have hms : dv * (o / dv + 1) = dv * (o / dv) + dv := Nat.mul_succ dv (o / dv)
            exact ⟨by omega, hdvpos⟩
          rw [if_pos hfull, if_pos hfull]
          by_cases hend : o + 1 < pl * dv
          · have hdivlt2 : o / dv + 1 < pl := by
              have h2 : (o + 1) / dv < pl := (Nat.div_lt_iff_lt_mul hdvpos).mpr hend
              rw [hdm1.1] at h2
              exact h2
            have hne2 : ¬ (bs + pl = idx + 1) := by rw [hidx]; omega
            rw [if_neg hne2, if_pos hend]
            exact ⟨by rw [hidx, hdm1.1]; omega, by rw [hdm1.2], halw⟩
          · have he : o + 1 = pl * dv := by omega
            have hdiv : o / dv + 1 = pl := by
              have h2 : (o + 1) / dv = pl := by rw [he]; exact Nat.mul_div_cancel pl hdvpos
              rw [hdm1.1] at h2
              exact h2
            have heq2 : bs + pl = idx + 1 := by rw [hidx]; omega
            rw [if_pos heq2, if_neg (by omega : ¬ (o + 1 < pl * dv))]
            exact ⟨by rw [hidx]; omega, rfl, rfl⟩
        · have hlt : o % dv + 1 < dv := by
            rw [hc1] at hfull
            omega
          have hdm1 : (o + 1) / dv = o / dv ∧ (o + 1) % dv = o % dv + 1 := by
            apply (Nat.div_mod_unique hdvpos).mpr
            exact ⟨by omega, hlt⟩
          have honew : o + 1 < pl * dv := by
            rcases Nat.lt_or_ge (o + 1) (pl * dv) with h | h
            · exact h
            · exfalso
              have he : o + 1 = pl * dv := by omega
              have hz : (o + 1) % dv = 0 := by rw [he]; exact Nat.mul_mod_left pl dv
              omega
          rw [if_neg hfull, if_neg hfull]
          have hne2 : ¬ (bs + pl = idx) := by rw [hidx]; omega
          rw [if_neg hne2, if_pos honew]
          exact ⟨by rw [hidx, hdm1.1], by rw [hc1, hdm1.2], halw⟩
    · rw [if_neg ho] at hb
      obtain ⟨hidx, hcnt, halw⟩ := hb
      have hc1 : cnt1 = cnt := by
        rw [hcnt1, if_neg (fun h => by rw [halw] at h; exact Bool.false_ne_true h.1)]
      have hne : ¬ (cnt1 = dv) := by rw [hc1, hcnt]; omega
      rw [if_neg hne, if_neg hne]
      have honew : ¬ (o + (if occ = true then 1 else 0) < pl * dv) := by
        by_cases hocc2 : occ = true
        · rw [if_pos hocc2]; omega
        · rw [if_neg hocc2]; omega
      rw [if_neg honew]
      refine ⟨hidx, by rw [hc1, hcnt], ?_⟩
      by_cases hbe : bs + pl = idx
      · rw [if_pos hbe]
      · rw [if_neg hbe, halw]

/-! ## Output block geometry and window values -/

theorem desc_index_init_add_le (p : ℕ → ℕ) (s s' : ℕ) (h : s < s') :
    desc_index_init p s + p s ≤ desc_index_init p s' := by
  have h1 : desc_index_init p s + p s = desc_index_init p (s + 1) :=
    (listSum_succ s p).symm
  rw [h1]
  exact listSum_le p (s + 1) s' h

theorem block_lt_total (nsit : ℕ) (p : ℕ → ℕ) (s j : ℕ) (hs : s < nsit) (hj : j < p s) :
    desc_index_init p s + j < listSum nsit p := by
  have h2 : desc_index_init p s + p s ≤ listSum nsit p := by
    rw [desc_index_init, ← listSum_succ]
    exact listSum_le p (s + 1) nsit hs
  omega

theorem block_disjoint (p : ℕ → ℕ) (s s' j j' : ℕ) (hne : s ≠ s')
    (hj : j < p s) (hj' : j' < p s') :
    desc_index_init p s + j ≠ desc_index_init p s' + j' := by
  rcases Nat.lt_or_ge s s' with h | h
  · have := desc_index_init_add_le p s s' h
    omega
  · have hlt : s' < s := Nat.lt_of_le_of_ne h (Ne.symm hne)
    have := desc_index_init_add_le p s' s hlt
    omega

theorem windowVal_nil (ndim dv j : ℕ) : windowVal ndim dv [] j = vzero ndim := by
  rw [windowVal]
  simp [vsum_nil]

theorem windowVal_append_lt (ndim dv : ℕ) (R : List Vec) (v : Vec) (j : ℕ)
    (h : (j + 1) * dv ≤ R.length) :
    windowVal ndim dv (R ++ [v]) j = windowVal ndim dv R j := by
  have hsm : (j + 1) * dv = j * dv + dv := Nat.succ_mul j dv
  rw [windowVal, windowVal]
  rw [List.drop_append_of_le_length (by omega)]
  rw [List.take_append_of_le_length (by rw [List.length_drop]; omega)]

theorem windowVal_append_ge (ndim dv : ℕ) (R : List Vec) (v : Vec) (j : ℕ)
    (h : R.length + 1 ≤ j * dv) :
    windowVal ndim dv (R ++ [v]) j = windowVal ndim dv R j := by
  have h1 : (R ++ [v]).drop (j * dv) = [] :=
    List.drop_eq_nil_of_le (by rw [List.length_append]; simp; omega)
  have h2 : R.drop (j * dv) = [] := List.drop_eq_nil_of_le (by omega)
  rw [windowVal, windowVal, h1, h2]

theorem windowVal_append_fill (ndim dv : ℕ) (R : List Vec) (v : Vec) (j : ℕ)
    (hj : j * dv ≤ R.length) (hlt : R.length < (j + 1) * dv) :
    windowVal ndim dv (R ++ [v]) j = vadd (windowVal ndim dv R j) (vdiv v dv) := by
  have hsm : (j + 1) * dv = j * dv + dv := Nat.succ_mul j dv
  have hlen : (R.drop (j * dv)).length < dv := by
    rw [List.length_drop]
    omega
  have h1 : (R.drop (j * dv) ++ [v]).take dv = R.drop (j * dv) ++ [v] :=
    List.take_of_length_le (by rw [List.length_append]; simp; omega)
  rw [windowVal, windowVal]
  rw [List.drop_append_of_le_length hj, h1]
  rw [List.take_of_length_le (Nat.le_of_lt hlen)]
  rw [List.map_append]
  simp only [List.map_cons, List.map_nil]
  rw [vsum_snoc]

/-! ## The global invariant of the accumulation pass -/

theorem GInv_init (nsit ndim : ℕ) (dv pl : ℕ → ℕ)
    (hpl : ∀ s, s < nsit → 1 ≤ pl s) :
    GInv nsit ndim dv pl [] (initState nsit ndim pl) := by
  refine ⟨?_, ?_, ?_⟩
  · simp [initState]
  · intro s hs
    simp only [initState]
    rw [Book]
    by_cases hdv : dv s = 0
    · rw [if_pos hdv]
      refine ⟨?_, rfl, by simp⟩
      rw [List.length_nil, if_pos rfl]
    · rw [if_neg hdv]
      have hpos : (0:ℕ) < pl s * dv s :=
        Nat.mul_pos (hpl s hs) (Nat.pos_of_ne_zero hdv)
      rw [if_pos (show countsOf [] s < pl s * dv s from by rw [countsOf_nil]; exact hpos)]
      refine ⟨?_, ?_, rfl⟩
      · rw [countsOf_nil, Nat.zero_div, Nat.add_zero]
      · rw [countsOf_nil, Nat.zero_mod]
  · intro s hs j hj
    simp only [initState]
    rw [getD_replicate _ _ _ (block_lt_total nsit pl s j hs hj)]
    show vzero ndim = windowVal ndim (dv s) (frameRaws [] s) j
    rw [frameRaws_nil, windowVal_nil]

theorem GInv_step (nsit ndim : ℕ) (dv pl : ℕ → ℕ) (pre : List Frame) (fr : Frame)
    (st : AccState)
    (hd0pl : ∀ s, s < nsit → dv s = 0 → pl s = 1)
    (hnev : ∀ s, s < nsit → dv s = 0 → frameOccupies fr s = false)
    (hvfr : ∀ q ∈ fr, validSiteB nsit q.1 = true)
    (h : GInv nsit ndim dv pl pre st) :
    GInv nsit ndim dv pl (pre ++ [fr]) (processFrame dv (max_index pl) st fr) := by
  obtain ⟨hlen, hbook, hrows⟩ := h
  have hqval : ∀ q ∈ describedOf st.allowed fr, q.1 < nsit := by
    intro q hq
    obtain ⟨hmem, halw, hocc⟩ := mem_describedOf_elim _ _ _ hq
    have hv := hvfr (some q.1, q.2) hmem
    simpa [validSiteB] using hv
  have hidxblock : ∀ q ∈ describedOf st.allowed fr,
      ∃ j, j < pl q.1 ∧ st.desc_index q.1 = desc_index_init pl q.1 + j := by
    intro q hq
    obtain ⟨hmem, halw, hocc⟩ := mem_describedOf_elim _ _ _ hq
    have hs := hqval q hq
    have hb := hbook q.1 hs
    rw [Book] at hb
    by_cases hdv : dv q.1 = 0
    · exfalso
      have h0 := hnev q.1 hs hdv
      rw [hocc] at h0
      cases h0
    · rw [if_neg hdv] at hb
      by_cases ho : countsOf pre q.1 < pl q.1 * dv q.1
      · rw [if_pos ho] at hb
        exact ⟨countsOf pre q.1 / dv q.1,
          (Nat.div_lt_iff_lt_mul (Nat.pos_of_ne_zero hdv)).mpr ho, hb.1⟩
      · exfalso
        rw [if_neg ho] at hb
        rw [hb.2.2] at halw
        cases halw
  have hcount1 : ∀ s, scatterCounts st.count_of_site (describedOf st.allowed fr) s
      = if (st.allowed s = true ∧ frameOccupies fr s = true)
        then st.count_of_site s + 1 else st.count_of_site s := by
    intro s
    rw [scatterCounts_apply]
    by_cases h1 : s ∈ (describedOf st.allowed fr).map Prod.fst
    · rw [if_pos h1, if_pos ((mem_describedOf_sites _ _ _).mp h1)]
    · rw [if_neg h1, if_neg (fun hc => h1 ((mem_describedOf_sites _ _ _).mpr hc))]
  have hocc_app : ∀ s, countsOf (pre ++ [fr]) s
      = countsOf pre s + (if frameOccupies fr s = true then 1 else 0) := by
    intro s
    rw [countsOf_append, countsOf_singleton]
  refine ⟨?_, ?_, ?_⟩
  · rw [processFrame_descs, scatterDescs_length]
    exact hlen
  · intro s hs
    have hb := hbook s hs
    have hmx : max_index pl s = desc_index_init pl s + pl s := by
      rw [max_index, desc_index_init, listSum_succ]
    simp only [List.length_append, List.length_singleton]
    rw [hocc_app s]
    rw [processFrame_allowed, processFrame_desc_index, processFrame_count_of_site]
    rw [hcount1 s, hmx]
    exact Book_step (dv s) (pl s) (desc_index_init pl s) pre.length (countsOf pre s)
      (st.desc_index s) (st.count_of_site s) _ (st.allowed s) (frameOccupies fr s)
      (hnev s hs) (hd0pl s hs) hb rfl
  · intro s hs j hj
    have hrlen : (frameRaws pre s).length = countsOf pre s := frameRaws_length pre s
    rw [processFrame_descs]
    by_cases hdesc : (st.allowed s = true ∧ frameOccupies fr s = true)
    · obtain ⟨halw, hocc⟩ := hdesc
      have hdvne : dv s ≠ 0 := by
        intro h0
        have h1 := hnev s hs h0
        rw [hocc] at h1
        cases h1
      have hdvpos : 0 < dv s := Nat.pos_of_ne_zero hdvne
      have hb := hbook s hs
      rw [Book, if_neg hdvne] at hb
      have hoactive : countsOf pre s < pl s * dv s := by
        by_contra ho
        rw [if_neg ho] at hb
        rw [hb.2.2] at halw
        cases halw
      rw [if_pos hoactive] at hb
      obtain ⟨hidx, hcnt, _⟩ := hb
      cases hlv : frameLastVec fr s with
      | none =>
        exfalso
        have h1 := (frameLastVec_none_iff fr s).mp hlv
        rw [← frameOccupies_false_iff] at h1
        rw [hocc] at h1
        cases h1
      | some v =>
        have hraws : frameRaws (pre ++ [fr]) s = frameRaws pre s ++ [v] := by
          rw [frameRaws_append, frameRaws_singleton, hlv]
          rfl
        rw [hraws]
        have hdm := Nat.div_add_mod (countsOf pre s) (dv s)
        have hmodlt : countsOf pre s % dv s < dv s := Nat.mod_lt _ hdvpos
        have hcm : countsOf pre s / dv s * dv s = dv s * (countsOf pre s / dv s) :=
          Nat.mul_comm _ _
        by_cases hje : j = countsOf pre s / dv s
        · have hr : st.desc_index s = desc_index_init pl s + j := by rw [hidx, hje]
          have hiff : ∀ q ∈ describedOf st.allowed fr,
              st.desc_index q.1 = desc_index_init pl s + j ↔ q.1 = s := by
            intro q hq
            constructor
            · intro he
              by_contra hne
              obtain ⟨j', hj', hq'⟩ := hidxblock q hq
              rw [hq'] at he
              exact block_disjoint pl q.1 s j' j hne hj' hj he
            · intro he
              rw [he, hr]
          have hrlt : desc_index_init pl s + j < st.descs.length := by
            rw [hlen]
            exact block_lt_total nsit pl s j hs hj
          rw [scatterDescs,
            scatterDescsAux_getD st.descs st.desc_index dv (desc_index_init pl s + j) s
              (describedOf st.allowed fr) st.descs rfl hiff hrlt]
          rw [lastVecOf_describedOf st.allowed s halw fr, hlv]
          show vadd (st.descs.getD (desc_index_init pl s + j) []) (vdiv v (dv s))
            = windowVal ndim (dv s) (frameRaws pre s ++ [v]) j
          rw [hrows s hs j hj]
          rw [windowVal_append_fill ndim (dv s) (frameRaws pre s) v j
            (by rw [hrlen, hje]; exact Nat.div_mul_le_self _ _)
            (by
              rw [hrlen, hje]
              have hsm2 : (countsOf pre s / dv s + 1) * dv s
                  = countsOf pre s / dv s * dv s + dv s := by ring
              omega)]
        · have hne : ∀ q ∈ describedOf st.allowed fr,
              st.desc_index q.1 ≠ desc_index_init pl s + j := by
            intro q hq he
            by_cases hqs : q.1 = s
            · rw [hqs, hidx] at he
              exact hje (by omega)
            · obtain ⟨j', hj', hq'⟩ := hidxblock q hq
              rw [hq'] at he
              exact block_disjoint pl q.1 s j' j hqs hj' hj he
          rw [scatterDescs,
            scatterDescsAux_getD_ne st.descs st.desc_index dv (desc_index_init pl s + j)
              (describedOf st.allowed fr) st.descs hne]
          rw [hrows s hs j hj]
          rcases Nat.lt_or_ge j (countsOf pre s / dv s) with hjlt | hjge
          · rw [windowVal_append_lt ndim (dv s) (frameRaws pre s) v j
              (by
                rw [hrlen]
                have h1 : (j + 1) * dv s ≤ countsOf pre s / dv s * dv s :=
                  Nat.mul_le_mul_right _ hjlt
                have h2 : countsOf pre s / dv s * dv s ≤ countsOf pre s :=
                  Nat.div_mul_le_self _ _
                omega)]
          · have hjgt : countsOf pre s / dv s < j :=
              Nat.lt_of_le_of_ne hjge (fun hc => hje hc.symm)
            rw [windowVal_append_ge ndim (dv s) (frameRaws pre s) v j
              (by
                rw [hrlen]
                have h1 : (countsOf pre s / dv s + 1) * dv s ≤ j * dv s :=
                  Nat.mul_le_mul_right _ hjgt
                have hsm2 : (countsOf pre s / dv s + 1) * dv s
                    = countsOf pre s / dv s * dv s + dv s := by ring
                omega)]
    · have hne : ∀ q ∈ describedOf st.allowed fr,
          st.desc_index q.1 ≠ desc_index_init pl s + j := by
        intro q hq he
        by_cases hqs : q.1 = s
        · obtain ⟨hmem, halw, hocc⟩ := mem_describedOf_elim _ _ _ hq
          rw [hqs] at halw hocc
          exact hdesc ⟨halw, hocc⟩
        · obtain ⟨j', hj', hq'⟩ := hidxblock q hq
          rw [hq'] at he
          exact block_disjoint pl q.1 s j' j hqs hj' hj he
      rw [scatterDescs,
        scatterDescsAux_getD_ne st.descs st.desc_index dv (desc_index_init pl s + j)
          (describedOf st.allowed fr) st.descs hne]
      rw [hrows s hs j hj]
      cases hoc : frameOccupies fr s with
      | false =>
        have hlv : frameLastVec fr s = none :=
          (frameLastVec_none_iff fr s).mpr ((frameOccupies_false_iff fr s).mp hoc)
        rw [frameRaws_append, frameRaws_singleton, hlv]
        simp
      | true =>
        have halwf : st.allowed s = false := by
          cases hal : st.allowed s with
          | false => rfl
          | true => exact absurd ⟨hal, hoc⟩ hdesc
        have hdvne : dv s ≠ 0 := by
          intro h0
          have h1 := hnev s hs h0
          rw [hoc] at h1
          cases h1
        have hb := hbook s hs
        rw [Book, if_neg hdvne] at hb
        have hoex : ¬ (countsOf pre s < pl s * dv s) := by
          intro ho
          rw [if_pos ho] at hb
          rw [hb.2.2] at halwf
          cases halwf
        cases hlv : frameLastVec fr s with
        | none =>
          exfalso
          have h1 := (frameLastVec_none_iff fr s).mp hlv
          rw [← frameOccupies_false_iff] at h1
          rw [hoc] at h1
          cases h1
        | some v =>
          rw [frameRaws_append, frameRaws_singleton, hlv]
          show windowVal ndim (dv s) (frameRaws pre s) j
            = windowVal ndim (dv s) (frameRaws pre s ++ [v]) j
          rw [windowVal_append_lt ndim (dv s) (frameRaws pre s) v j
            (by
              rw [hrlen]
              have h1 : (j + 1) * dv s ≤ pl s * dv s := Nat.mul_le_mul_right _ hj
              omega)]

theorem GInv_run (nsit ndim : ℕ) (dv pl : ℕ → ℕ) : ∀ (l pre : List Frame) (st : AccState),
    (∀ s, s < nsit → dv s = 0 → pl s = 1) →
    (∀ s, s < nsit → dv s = 0 → ∀ fr ∈ l, frameOccupies fr s = false) →
    (∀ fr ∈ l, ∀ q ∈ fr, validSiteB nsit q.1 = true) →
    GInv nsit ndim dv pl pre st →
    GInv nsit ndim dv pl (pre ++ l) (l.foldl (processFrame dv (max_index pl)) st) := by
  intro l
  induction l with
  | nil =>
    intro pre st _ _ _ h
    simpa using h
  | cons fr l ih =>
    intro pre st hd0pl hnev hval h
    have hstep := GInv_step nsit ndim dv pl pre fr st hd0pl
      (fun s hs h0 => hnev s hs h0 fr (List.mem_cons_self fr l))
      (fun q hq => hval fr (List.mem_cons_self fr l) q hq) h
    have hrest := ih (pre ++ [fr]) (processFrame dv (max_index pl) st fr) hd0pl
      (fun s hs h0 fr' hfr' => hnev s hs h0 fr' (List.mem_cons_of_mem fr hfr'))
      (fun fr' hfr' => hval fr' (List.mem_cons_of_mem fr hfr')) hstep
    rw [List.foldl_cons]
    have hassoc : (pre ++ [fr]) ++ l = pre ++ (fr :: l) := by simp
    rw [hassoc] at hrest
    exact hrest

/-! ## Planner facts for a concrete run -/

theorem averagingOf_pos (nsit : ℕ) (counts : ℕ → ℕ) (m : AvgMode) :
    1 ≤ averagingOf nsit counts m := by
  rw [averagingOf]
  by_cases h : rawAveragingOf nsit counts m = 0
  · rw [if_pos h]
  · rw [if_neg h]
    omega

theorem nr_of_descs_pos (counts : ℕ → ℕ) (averaging s : ℕ) :
    1 ≤ nr_of_descs counts averaging s := by
  rw [nr_of_descs]
  omega

theorem averagings_eq_zero (counts : ℕ → ℕ) (averaging s : ℕ)
    (hav : 1 ≤ averaging) (h : averagings counts averaging s = 0) :
    counts s = 0 ∧ nr_of_descs counts averaging s = 1 := by
  rw [averagings] at h
  by_cases h1 : counts s / averaging = 0
  · rw [if_pos h1] at h
    refine ⟨h, ?_⟩
    rw [nr_of_descs, h1]
    simp
  · rw [if_neg h1] at h
    omega

theorem averagings_zero_of_counts_zero (counts : ℕ → ℕ) (averaging s : ℕ)
    (h : counts s = 0) : averagings counts averaging s = 0 := by
  rw [averagings, h]
  rw [if_pos (Nat.zero_div _)]

theorem nr_mul_averagings_le (counts : ℕ → ℕ) (averaging s : ℕ) :
    nr_of_descs counts averaging s * averagings counts averaging s ≤ counts s := by
  rw [nr_of_descs, averagings]
  by_cases h1 : counts s / averaging = 0
  · rw [if_pos h1, h1]
    simp
  · rw [if_neg h1]
    have h2 : max (counts s / averaging) 1 = counts s / averaging :=
      Nat.max_eq_left (Nat.pos_of_ne_zero h1)
    rw [h2]
    exact Nat.div_mul_le_self _ _

theorem planNr_pos (nsit : ℕ) (m : AvgMode) (frames : List Frame) (s : ℕ) :
    1 ≤ planNr nsit m frames s := nr_of_descs_pos _ _ _

theorem planAveragings_zero_data (nsit : ℕ) (m : AvgMode) (frames : List Frame) (s : ℕ)
    (h : planAveragings nsit m frames s = 0) :
    countsOf frames s = 0 ∧ planNr nsit m frames s = 1 := by
  rw [planAveragings] at h
  have := averagings_eq_zero (countsOf frames) (averagingOf nsit (countsOf frames) m) s
    (averagingOf_pos nsit (countsOf frames) m) h
  exact ⟨this.1, this.2⟩

theorem planNr_d0 (nsit : ℕ) (m : AvgMode) (frames : List Frame) :
    ∀ s, s < nsit → planAveragings nsit m frames s = 0 → planNr nsit m frames s = 1 := by
  intro s _ h
  exact (planAveragings_zero_data nsit m frames s h).2

theorem plan_never_occupied (nsit : ℕ) (m : AvgMode) (frames : List Frame) :
    ∀ s, s < nsit → planAveragings nsit m frames s = 0 →
    ∀ fr ∈ frames, frameOccupies fr s = false := by
  intro s hs h
  have hc := (planAveragings_zero_data nsit m frames s h).1
  exact (countsOf_eq_zero_iff frames s).mp hc

/-! ## The final state of a run -/

theorem finalStateOf_GInv (nsit ndim : ℕ) (m : AvgMode) (frames : List Frame)
    (hval : ValidAssign nsit frames) :
    GInv nsit ndim (planAveragings nsit m frames) (planNr nsit m frames) frames
      (finalStateOf nsit ndim m frames) := by
  have h := GInv_run nsit ndim (planAveragings nsit m frames) (planNr nsit m frames)
    frames [] (initState nsit ndim (planNr nsit m frames))
    (planNr_d0 nsit m frames)
    (fun s hs h0 => plan_never_occupied nsit m frames s hs h0)
    hval
    (GInv_init nsit ndim (planAveragings nsit m frames) (planNr nsit m frames)
      (fun s _ => planNr_pos nsit m frames s))
  rw [List.nil_append] at h
  exact h

theorem finalStateOf_exhausted (nsit ndim : ℕ) (m : AvgMode) (frames : List Frame)
    (hval : ValidAssign nsit frames) (hne : frames ≠ []) :
    ∀ s, s < nsit → (finalStateOf nsit ndim m frames).allowed s = false := by
  intro s hs
  obtain ⟨_, hbook, _⟩ := finalStateOf_GInv nsit ndim m frames hval
  have hb := hbook s hs
  rw [Book] at hb
  by_cases hdv : planAveragings nsit m frames s = 0
  · rw [if_pos hdv] at hb
    have hlen : frames.length ≠ 0 := fun hc => hne (List.length_eq_zero.mp hc)
    rw [hb.2.2]
    simp [hlen]
  · rw [if_neg hdv] at hb
    have hc : 0 < countsOf frames s := by
      by_contra hc
      have h0 : countsOf frames s = 0 := by omega
      exact hdv (by
        rw [planAveragings]
        exact averagings_zero_of_counts_zero _ _ s h0)
    have hle : planNr nsit m frames s * planAveragings nsit m frames s
        ≤ countsOf frames s := by
      rw [planNr, planAveragings]
      exact nr_mul_averagings_le _ _ s
    rw [if_neg (by omega)] at hb
    exact hb.2.2

theorem getDescriptorsCore_ok (nsit ndim : ℕ) (m : AvgMode) (frames : List Frame)
    (hval : ValidAssign nsit frames) (hne : frames ≠ []) :
    getDescriptorsCore nsit ndim m frames =
      Except.ok ((finalStateOf nsit ndim m frames).descs,
        desc_to_site nsit (planNr nsit m frames)) := by
  rw [getDescriptorsCore]
  have hcond : ((List.range nsit).all
      (fun s => ! (finalStateOf nsit ndim m frames).allowed s)) = true := by
    rw [List.all_eq_true]
    intro s hsm
    have hs := List.mem_range.mp hsm
    rw [finalStateOf_exhausted nsit ndim m frames hval hne s hs]
    rfl
  rw [if_pos hcond]

/-! ## The label array -/

theorem desc_to_site_succ (n : ℕ) (p : ℕ → ℕ) :
    desc_to_site (n + 1) p = desc_to_site n p ++ List.replicate (p n) n := by
  rw [desc_to_site, desc_to_site, List.range_succ, List.flatMap_append]
  simp

theorem desc_to_site_length (nsit : ℕ) (p : ℕ → ℕ) :
    (desc_to_site nsit p).length = listSum nsit p := by
  induction nsit with
  | zero => rfl
  | succ n ih =>
    rw [desc_to_site_succ, List.length_append, ih, List.length_replicate, listSum_succ]

theorem mem_desc_to_site_lt (nsit : ℕ) (p : ℕ → ℕ) (x : ℕ)
    (h : x ∈ desc_to_site nsit p) : x < nsit := by
  rw [desc_to_site, List.mem_flatMap] at h
  obtain ⟨s, hs, hx⟩ := h
  rw [List.mem_replicate] at hx
  rw [hx.2]
  exact List.mem_range.mp hs

theorem desc_to_site_count (nsit : ℕ) (p : ℕ → ℕ) (s : ℕ) :
    (desc_to_site nsit p).count s = if s < nsit then p s else 0 := by
  induction nsit with
  | zero => simp [desc_to_site]
  | succ n ih =>
    rw [desc_to_site_succ, List.count_append, ih, List.count_replicate]
    by_cases h2 : s = n
    · subst h2
      rw [if_neg (Nat.lt_irrefl s), if_pos (Nat.lt_succ_self s)]
      simp
    · have hne2 : ¬ ((n == s) = true) := by
        simp only [beq_iff_eq]
        exact Ne.symm h2
      rw [if_neg hne2]
      by_cases h1 : s < n
      · rw [if_pos h1, if_pos (Nat.lt_succ_of_lt h1)]
        omega
      · rw [if_neg h1, if_neg (by omega)]

theorem desc_to_site_sorted (nsit : ℕ) (p : ℕ → ℕ) :
    (desc_to_site nsit p).Sorted (fun a b => a ≤ b) := by
  induction nsit with
  | zero => simp [desc_to_site]
  | succ n ih =>
    rw [desc_to_site_succ, List.Sorted, List.pairwise_append]
    refine ⟨ih, ?_, ?_⟩
    · rw [List.pairwise_replicate]
      right
      exact Nat.le_refl n
    · intro x hx y hy
      have h1 : x < n := mem_desc_to_site_lt n p x hx
      have h2 : y = n := (List.mem_replicate.mp hy).2
      omega

/-! ## Length of the output array, unconditionally -/

theorem foldl_processFrame_descs_length (av mx : ℕ → ℕ) :
    ∀ (l : List Frame) (st : AccState),
    (l.foldl (processFrame av mx) st).descs.length = st.descs.length := by
  intro l
  induction l with
  | nil => intro st; rfl
  | cons fr l ih =>
    intro st
    rw [List.foldl_cons, ih, processFrame_descs, scatterDescs_length]

theorem finalStateOf_descs_length (nsit ndim : ℕ) (m : AvgMode) (frames : List Frame) :
    (finalStateOf nsit ndim m frames).descs.length = listSum nsit (planNr nsit m frames) := by
  rw [finalStateOf, foldl_processFrame_descs_length]
  simp [initState]

/-! ## Claim theorems -/

/-- Claim C2 counterexample: a frame assigning two entities to the same
site contributes a single count in the code (`counts[frame] += 1` with a
duplicated index performs one addition), while the claim predicts one
count per (entity, frame) pair, here 2. -/
theorem c2_duplicate_entities_counterexample :
    countsOf [[(some 0, [(1:ℚ)]), (some 0, [1])]] 0 = 1 ∧
    pairCount [[(some 0, [(1:ℚ)]), (some 0, [1])]] 0 = 2 ∧
    countsOf [[(some 0, [(1:ℚ)]), (some 0, [1])]] 0
      ≠ pairCount [[(some 0, [(1:ℚ)]), (some 0, [1])]] 0 := by
  refine ⟨by decide, by decide, by decide⟩

/-- Claim C2 (amended): for every stride-selected frame sub-sequence, the
occupancy counter returns, for each site, the number of sampled frames in
which at least one entity is assigned to that site, ignoring the unknown
sentinel; several entities on the same site within one frame contribute a
single count. -/
theorem c2_occupancy_counts_frames (k : ℕ) (frames : List Frame) (s : ℕ) :
    countsOf (strideSelect k frames) s
      = ((strideSelect k frames).filter (fun fr => frameOccupies fr s)).length :=
  countsOf_eq _ _

/-- Claim C3, evaluated at the failing input: with two sites and site 1
never occupied, the engine completes successfully and returns an all-zero
row labeled 1, rather than excluding the zero-occupancy site or raising a
distinct error. -/
theorem c3_zero_occupancy_not_guarded :
    getDescriptorsCore 2 1 (AvgMode.averaging 1) [[(some 0, [(2:ℚ)])]] =
      Except.ok ([[2], [0]], [0, 1]) ∧
    countsOf [[(some 0, [(2:ℚ)])]] 1 = 0 ∧
    ([0, 1] : List ℕ).count 1 = 1 := by
  refine ⟨by with_unfolding_all rfl, by decide, by decide⟩

/-- Claim C4: for every positive divisor candidate, a site whose counts
divided by the candidate floor to zero gets one planned output with the
site count as divisor, and every other site gets counts // candidate
planned outputs with the candidate as divisor. -/
theorem c4_planner_insufficiency_rule (counts : ℕ → ℕ) (dvc s : ℕ) (hD : 0 < dvc) :
    (counts s / dvc = 0 →
      nr_of_descs counts dvc s = 1 ∧ averagings counts dvc s = counts s) ∧
    (counts s / dvc ≠ 0 →
      nr_of_descs counts dvc s = counts s / dvc ∧ averagings counts dvc s = dvc) := by
  constructor
  · intro h
    rw [nr_of_descs, averagings, h, if_pos rfl]
    simp
  · intro h
    rw [nr_of_descs, averagings, if_neg h]
    exact ⟨Nat.max_eq_left (Nat.pos_of_ne_zero h), rfl⟩

/-- Witness for claim C4 at counts = 7, candidate = 3: planned = 2,
divisor = 3. -/
theorem c4_planner_insufficiency_rule_witness :
    nr_of_descs (fun _ => (7:ℕ)) 3 0 = 2 ∧ averagings (fun _ => (7:ℕ)) 3 0 = 3 := by
  have h := (c4_planner_insufficiency_rule (fun _ => (7:ℕ)) 3 0 (by decide)).2 (by decide)
  exact ⟨by rw [h.1], h.2⟩

/-- Claim C5: in target-outputs-per-site mode the divisor candidate is
floor(mean(counts) / T), computed once; a zero candidate is clamped to 1
with a non-fatal warning, and otherwise used unchanged without warning. -/
theorem c5_target_mode_divisor (nsit t : ℕ) (counts : ℕ → ℕ)
    (ht : 0 < t) (hn : 0 < nsit) :
    rawAveragingOf nsit counts (AvgMode.avgDescriptorsPerSite t)
      = listSum nsit counts / (nsit * t) ∧
    (rawAveragingOf nsit counts (AvgMode.avgDescriptorsPerSite t) = 0 →
      averagingOf nsit counts (AvgMode.avgDescriptorsPerSite t) = 1 ∧
      clampWarningOf nsit counts (AvgMode.avgDescriptorsPerSite t) = true) ∧
    (rawAveragingOf nsit counts (AvgMode.avgDescriptorsPerSite t) ≠ 0 →
      averagingOf nsit counts (AvgMode.avgDescriptorsPerSite t)
        = rawAveragingOf nsit counts (AvgMode.avgDescriptorsPerSite t) ∧
      clampWarningOf nsit counts (AvgMode.avgDescriptorsPerSite t) = false) := by
  refine ⟨?_, ?_, ?_⟩
  · show (⌊((listSum nsit counts : ℚ) / (nsit : ℚ)) / (t : ℚ)⌋₊ : ℕ)
      = listSum nsit counts / (nsit * t)
    rw [Nat.floor_div_nat, Nat.floor_div_nat, Nat.floor_natCast, Nat.div_div_eq_div_mul]
  · intro h
    refine ⟨by rw [averagingOf, if_pos h], ?_⟩
    rw [clampWarningOf, h]
    simp
  · intro h
    refine ⟨by rw [averagingOf, if_neg h], ?_⟩
    rw [clampWarningOf]
    simp [h]

/-- Witness for claim C5 at nsit = 2, T = 1, counts = 3 per site. -/
theorem c5_target_mode_divisor_witness :
    rawAveragingOf 2 (fun _ => (3:ℕ)) (AvgMode.avgDescriptorsPerSite 1)
      = listSum 2 (fun _ => (3:ℕ)) / (2 * 1) ∧
    (rawAveragingOf 2 (fun _ => (3:ℕ)) (AvgMode.avgDescriptorsPerSite 1) = 0 →
      averagingOf 2 (fun _ => (3:ℕ)) (AvgMode.avgDescriptorsPerSite 1) = 1 ∧
      clampWarningOf 2 (fun _ => (3:ℕ)) (AvgMode.avgDescriptorsPerSite 1) = true) ∧
    (rawAveragingOf 2 (fun _ => (3:ℕ)) (AvgMode.avgDescriptorsPerSite 1) ≠ 0 →
      averagingOf 2 (fun _ => (3:ℕ)) (AvgMode.avgDescriptorsPerSite 1)
        = rawAveragingOf 2 (fun _ => (3:ℕ)) (AvgMode.avgDescriptorsPerSite 1) ∧
      clampWarningOf 2 (fun _ => (3:ℕ)) (AvgMode.avgDescriptorsPerSite 1) = false) :=
  c5_target_mode_divisor 2 1 (fun _ => (3:ℕ)) (by decide) (by decide)

/-- Claim C1: whenever the engine returns, the descriptor array and the
label array have the same number of rows, equal to the sum over all sites
of the planned output counts. -/
theorem c1_output_sizes (nsit ndim : ℕ) (m : AvgMode) (frames : List Frame)
    (out : List Vec × List ℕ)
    (h : getDescriptorsCore nsit ndim m frames = Except.ok out) :
    out.1.length = out.2.length ∧
    out.1.length = listSum nsit (planNr nsit m frames) := by
  simp only [getDescriptorsCore] at h
  split at h
  · have hout := Except.ok.inj h
    rw [← hout]
    dsimp only
    rw [finalStateOf_descs_length, desc_to_site_length]
    exact ⟨rfl, rfl⟩
  · simp at h

/-- Witness for claim C1 on a one-site, one-frame run. -/
theorem c1_output_sizes_witness :
    (([[(2:ℚ)]], [0]) : List Vec × List ℕ).1.length
      = (([[(2:ℚ)]], [0]) : List Vec × List ℕ).2.length ∧
    (([[(2:ℚ)]], [0]) : List Vec × List ℕ).1.length
      = listSum 1 (planNr 1 (AvgMode.averaging 1) [[(some 0, [(2:ℚ)])]]) :=
  c1_output_sizes 1 1 (AvgMode.averaging 1) [[(some 0, [(2:ℚ)])]] ([[2]], [0])
    (by with_unfolding_all rfl)

/-- Claim C9: the returned label array is the per-site concatenation in
ascending site order, hence sorted, and the group of rows labeled s has
length planned_count[s] for every site s. -/
theorem c9_labels_grouped (nsit ndim : ℕ) (m : AvgMode) (frames : List Frame)
    (out : List Vec × List ℕ)
    (h : getDescriptorsCore nsit ndim m frames = Except.ok out) :
    out.2 = desc_to_site nsit (planNr nsit m frames) ∧
    out.2.Sorted (fun a b => a ≤ b) ∧
    (∀ s, s < nsit → out.2.count s = planNr nsit m frames s) := by
  simp only [getDescriptorsCore] at h
  split at h
  · have hout := Except.ok.inj h
    rw [← hout]
    dsimp only
    refine ⟨rfl, desc_to_site_sorted nsit (planNr nsit m frames), ?_⟩
    intro s hs
    rw [desc_to_site_count, if_pos hs]
  · simp at h

/-- Witness for claim C9 on a two-site run. -/
theorem c9_labels_grouped_witness :
    (([[(2:ℚ)], [0]], [0, 1]) : List Vec × List ℕ).2
        = desc_to_site 2 (planNr 2 (AvgMode.averaging 1) [[(some 0, [(2:ℚ)])]]) ∧
    (([[(2:ℚ)], [0]], [0, 1]) : List Vec × List ℕ).2.Sorted (fun a b => a ≤ b) ∧
    (∀ s, s < 2 → (([[(2:ℚ)], [0]], [0, 1]) : List Vec × List ℕ).2.count s
        = planNr 2 (AvgMode.averaging 1) [[(some 0, [(2:ℚ)])]] s) :=
  c9_labels_grouped 2 1 (AvgMode.averaging 1) [[(some 0, [(2:ℚ)])]] ([[2], [0]], [0, 1])
    (by with_unfolding_all rfl)

/-- Claim C7: construction succeeds exactly when exactly one averaging
mode keyword is supplied, every supplied mode parameter is positive, and
the stepsize (defaulted to 1) is positive; it fails when both or neither
mode keyword is supplied or a supplied parameter is non-positive. -/
theorem c7_init_validation (stepsize averaging avgDescriptorsPerSite : Option ℤ) :
    (∃ cfg, soapDescriptorAveragesInit stepsize averaging avgDescriptorsPerSite
        = Except.ok cfg) ↔
      (((averaging.isSome = true ∧ avgDescriptorsPerSite = none) ∨
        (averaging = none ∧ avgDescriptorsPerSite.isSome = true)) ∧
       (∀ w, averaging = some w → 0 < w) ∧
       (∀ t, avgDescriptorsPerSite = some t → 0 < t) ∧
       0 < stepsize.getD 1) := by
  cases averaging with
  | some w =>
    cases avgDescriptorsPerSite with
    | some t =>
      constructor
      · rintro ⟨cfg, hc⟩
        rw [soapDescriptorAveragesInit] at hc
        simp at hc
      · rintro ⟨h1, _⟩
        rcases h1 with ⟨_, h2⟩ | ⟨h2, _⟩ <;> simp at h2
    | none =>
      by_cases h1 : 0 < stepsize.getD 1
      · by_cases h2 : 0 < w
        · constructor
          · intro _
            refine ⟨Or.inl ⟨rfl, rfl⟩, ?_, ?_, h1⟩
            · intro w' hw'
              rw [← Option.some.inj hw']
              exact h2
            · intro t ht'
              simp at ht'
          · intro _
            refine ⟨(stepsize.getD 1, CfgMode.averaging w), ?_⟩
            rw [soapDescriptorAveragesInit]
            simp [h1, h2]
        · constructor
          · rintro ⟨cfg, hc⟩
            rw [soapDescriptorAveragesInit] at hc
            simp [h1, h2] at hc
          · rintro ⟨_, hw, _, _⟩
            exact absurd (hw w rfl) h2
      · constructor
        · rintro ⟨cfg, hc⟩
          rw [soapDescriptorAveragesInit] at hc
          simp [h1] at hc
        · rintro ⟨_, _, _, hst⟩
          exact absurd hst h1
  | none =>
    cases avgDescriptorsPerSite with
    | some t =>
      by_cases h1 : 0 < stepsize.getD 1
      · by_cases h2 : 0 < t
        · constructor
          · intro _
            refine ⟨Or.inr ⟨rfl, rfl⟩, ?_, ?_, h1⟩
            · intro w' hw'
              simp at hw'
            · intro t' ht'
              rw [← Option.some.inj ht']
              exact h2
          · intro _
            refine ⟨(stepsize.getD 1, CfgMode.avgDescriptorsPerSite t), ?_⟩
            rw [soapDescriptorAveragesInit]
            simp [h1, h2]
        · constructor
          · rintro ⟨cfg, hc⟩
            rw [soapDescriptorAveragesInit] at hc
            simp [h1, h2] at hc
          · rintro ⟨_, _, ht2, _⟩
            exact absurd (ht2 t rfl) h2
      · constructor
        · rintro ⟨cfg, hc⟩
          rw [soapDescriptorAveragesInit] at hc
          simp [h1] at hc
        · rintro ⟨_, _, _, hst⟩
          exact absurd hst h1
    | none =>
      constructor
      · rintro ⟨cfg, hc⟩
        rw [soapDescriptorAveragesInit] at hc
        simp at hc
      · rintro ⟨h1, _⟩
        rcases h1 with ⟨ha, _⟩ | ⟨_, hb⟩
        · simp at ha
        · simp at hb

/-- Claim C8: on a valid, non-empty sampled trajectory every site is
exhausted after the last frame and the run returns the assembled output;
and whenever some site is still active after the pass, the engine fails
with an error instead of returning a short or malformed output. -/
theorem c8_postpass_exhaustion (nsit ndim : ℕ) (m : AvgMode) (frames : List Frame)
    (hval : ValidAssign nsit frames) (hne : frames ≠ []) :
    (∀ s, s < nsit → (finalStateOf nsit ndim m frames).allowed s = false) ∧
    getDescriptorsCore nsit ndim m frames =
      Except.ok ((finalStateOf nsit ndim m frames).descs,
        desc_to_site nsit (planNr nsit m frames)) ∧
    (∀ frames' : List Frame, ∀ s, s < nsit →
      (finalStateOf nsit ndim m frames').allowed s = true →
      getDescriptorsCore nsit ndim m frames' =
        Except.error "not all sites were exhausted after the final frame") := by
  refine ⟨finalStateOf_exhausted nsit ndim m frames hval hne,
    getDescriptorsCore_ok nsit ndim m frames hval hne, ?_⟩
  intro frames' s hs ha
  have hcond : ¬ (((List.range nsit).all
      (fun s' => ! (finalStateOf nsit ndim m frames').allowed s')) = true) := by
    intro hc
    rw [List.all_eq_true] at hc
    have h2 := hc s (List.mem_range.mpr hs)
    rw [ha] at h2
    simp at h2
  simp only [getDescriptorsCore]
  rw [if_neg hcond]

/-- Witness for claim C8 on a one-site, one-frame run. -/
theorem c8_postpass_exhaustion_witness :
    (finalStateOf 1 1 (AvgMode.averaging 1) [[(some 0, [(3:ℚ)])]]).allowed 0 = false :=
  (c8_postpass_exhaustion 1 1 (AvgMode.averaging 1) [[(some 0, [(3:ℚ)])]]
    (by unfold ValidAssign; decide) (List.cons_ne_nil _ _)).1 0 (by decide)

/-- Claim C10: on a valid, non-empty sampled trajectory in which site s
has zero occupancy, the run completes without error, the zero divisor of
s is never used as a denominator (every occupied site keeps a positive
divisor), and the output holds exactly one row labeled s, the zero
vector. -/
theorem c10_zero_occupancy_site_behavior (nsit ndim : ℕ) (m : AvgMode)
    (frames : List Frame) (s : ℕ)
    (hval : ValidAssign nsit frames) (hne : frames ≠ []) (hs : s < nsit)
    (hzero : countsOf frames s = 0) :
    getDescriptorsCore nsit ndim m frames =
      Except.ok ((finalStateOf nsit ndim m frames).descs,
        desc_to_site nsit (planNr nsit m frames)) ∧
    planNr nsit m frames s = 1 ∧
    (desc_to_site nsit (planNr nsit m frames)).count s = 1 ∧
    (finalStateOf nsit ndim m frames).descs.getD
      (desc_index_init (planNr nsit m frames) s) [] = vzero ndim ∧
    (∀ s', s' < nsit → 0 < countsOf frames s' →
      0 < planAveragings nsit m frames s') := by
  have hp1 : planNr nsit m frames s = 1 := by
    rw [planNr, nr_of_descs, hzero, Nat.zero_div]
    simp
  refine ⟨getDescriptorsCore_ok nsit ndim m frames hval hne, hp1, ?_, ?_, ?_⟩
  · rw [desc_to_site_count, if_pos hs, hp1]
  · obtain ⟨_, _, hrows⟩ := finalStateOf_GInv nsit ndim m frames hval
    have h0 := hrows s hs 0 (by rw [hp1]; exact Nat.zero_lt_one)
    rw [Nat.add_zero] at h0
    rw [h0]
    have hraws : frameRaws frames s = [] := by
      have h1 := frameRaws_length frames s
      rw [hzero] at h1
      exact List.length_eq_zero.mp h1
    rw [hraws, windowVal_nil]
  · intro s' hs' hc'
    rw [planAveragings, averagings]
    by_cases h1 : countsOf frames s' / planAveraging nsit m frames = 0
    · rw [if_pos h1]
      exact hc'
    · rw [if_neg h1]
      exact averagingOf_pos _ _ _

/-- Witness for claim C10: the zero-occupancy site 1 gets one all-zero
output row. -/
theorem c10_zero_occupancy_site_behavior_witness :
    (finalStateOf 2 1 (AvgMode.averaging 1) [[(some 0, [(2:ℚ)])]]).descs.getD
      (desc_index_init (planNr 2 (AvgMode.averaging 1) [[(some 0, [(2:ℚ)])]]) 1) []
      = vzero 1 :=
  (c10_zero_occupancy_site_behavior 2 1 (AvgMode.averaging 1) [[(some 0, [(2:ℚ)])]] 1
    (by unfold ValidAssign; decide) (List.cons_ne_nil _ _) (by decide) (by decide)).2.2.2.1

theorem windowVal_eq_vdiv (ndim dv : ℕ) (R : List Vec) (j : ℕ) :
    windowVal ndim dv R j = vdiv (vsum ndim ((R.drop (j * dv)).take dv)) dv := by
  rw [windowVal, vsum_map_vdiv]

/-- Claim C6 counterexample: with two entities of the same site in one
frame, the site satisfies counts = 1 * 2 + 1, exactly one output row is
produced, yet it is not the elementwise sum of the first 2 consecutive
raw (entity, frame) feature vectors divided by 2: the engine keeps only
the last duplicate of the frame. -/
theorem c6_duplicate_window_counterexample :
    countsOf [[(some 0, [(1:ℚ)]), (some 0, [2])], [(some 0, [3])], [(some 0, [5])]] 0
      = 1 * 2 + 1 ∧
    planAveraging 1 (AvgMode.averaging 2)
      [[(some 0, [(1:ℚ)]), (some 0, [2])], [(some 0, [3])], [(some 0, [5])]] = 2 ∧
    getDescriptorsCore 1 1 (AvgMode.averaging 2)
      [[(some 0, [(1:ℚ)]), (some 0, [2])], [(some 0, [3])], [(some 0, [5])]]
      = Except.ok ([[(5:ℚ)/2]], [0]) ∧
    ([[(5:ℚ)/2]] : List Vec).getD 0 []
      ≠ vdiv (vsum 1 ((pairRaws
          [[(some 0, [(1:ℚ)]), (some 0, [2])], [(some 0, [3])], [(some 0, [5])]] 0).take 2))
          2 := by
  refine ⟨by decide, by decide, by with_unfolding_all rfl, by with_unfolding_all decide⟩

/-- Claim C6 (amended): provided no sampled frame assigns two entities to
the same site, for every site with counts = q * divisor_candidate + r
(q at least 1, 0 < r < divisor_candidate), exactly q output rows are
produced for the site, each the elementwise sum of its divisor_candidate
consecutive raw feature vectors divided by divisor_candidate, and the
trailing r raw samples are discarded. -/
theorem c6_full_windows (nsit ndim : ℕ) (m : AvgMode) (frames : List Frame)
    (s q r : ℕ)
    (hval : ValidAssign nsit frames) (hnd : NodupSites nsit frames) (hs : s < nsit)
    (hc : countsOf frames s = q * planAveraging nsit m frames + r)
    (hq : 1 ≤ q) (hr0 : 0 < r) (hrD : r < planAveraging nsit m frames) :
    planNr nsit m frames s = q ∧
    (pairRaws frames s).length = q * planAveraging nsit m frames + r ∧
    getDescriptorsCore nsit ndim m frames =
      Except.ok ((finalStateOf nsit ndim m frames).descs,
        desc_to_site nsit (planNr nsit m frames)) ∧
    (desc_to_site nsit (planNr nsit m frames)).count s = q ∧
    (∀ j, j < q →
      (finalStateOf nsit ndim m frames).descs.getD
        (desc_index_init (planNr nsit m frames) s + j) []
        = vdiv (vsum ndim
            (((pairRaws frames s).drop (j * planAveraging nsit m frames)).take
              (planAveraging nsit m frames)))
            (planAveraging nsit m frames)) := by
  have hA : 0 < planAveraging nsit m frames := averagingOf_pos _ _ _
  have hdiv : countsOf frames s / planAveraging nsit m frames = q := by
    rw [hc, Nat.add_comm, Nat.add_mul_div_right r q hA, Nat.div_eq_of_lt hrD,
      Nat.zero_add]
  have hplan : planNr nsit m frames s = q := by
    rw [planNr, nr_of_descs, hdiv]
    exact Nat.max_eq_left hq
  have hdvs : planAveragings nsit m frames s = planAveraging nsit m frames := by
    rw [planAveragings, averagings]
    rw [if_neg (by
      show ¬ (countsOf frames s / averagingOf nsit (countsOf frames) m = 0)
      have h2 : countsOf frames s / averagingOf nsit (countsOf frames) m = q := hdiv
      omega)]
  have hcpos : 0 < countsOf frames s := by
    rw [hc]
    omega
  have hne : frames ≠ [] := countsOf_pos_ne_nil frames s hcpos
  have hpr : pairRaws frames s = frameRaws frames s :=
    pairRaws_eq_frameRaws nsit frames s hs hnd
  refine ⟨hplan, ?_, getDescriptorsCore_ok nsit ndim m frames hval hne, ?_, ?_⟩
  · rw [hpr, frameRaws_length, hc]
  · rw [desc_to_site_count, if_pos hs, hplan]
  · intro j hj
    obtain ⟨_, _, hrows⟩ := finalStateOf_GInv nsit ndim m frames hval
    have h0 := hrows s hs j (by rw [hplan]; exact hj)
    rw [h0, hdvs, windowVal_eq_vdiv, hpr]

/-- Witness for the amended claim C6: one full window of two raw vectors,
one discarded trailing sample. -/
theorem c6_full_windows_witness :
    (finalStateOf 1 1 (AvgMode.averaging 2)
      [[(some 0, [(1:ℚ)])], [(some 0, [3])], [(some 0, [5])]]).descs.getD
      (desc_index_init (planNr 1 (AvgMode.averaging 2)
        [[(some 0, [(1:ℚ)])], [(some 0, [3])], [(some 0, [5])]]) 0 + 0) []
      = vdiv (vsum 1 (((pairRaws
          [[(some 0, [(1:ℚ)])], [(some 0, [3])], [(some 0, [5])]] 0).drop
          (0 * planAveraging 1 (AvgMode.averaging 2)
            [[(some 0, [(1:ℚ)])], [(some 0, [3])], [(some 0, [5])]])).take
          (planAveraging 1 (AvgMode.averaging 2)
            [[(some 0, [(1:ℚ)])], [(some 0, [3])], [(some 0, [5])]])))
        (planAveraging 1 (AvgMode.averaging 2)
          [[(some 0, [(1:ℚ)])], [(some 0, [3])], [(some 0, [5])]]) :=
  (c6_full_windows 1 1 (AvgMode.averaging 2)
    [[(some 0, [(1:ℚ)])], [(some 0, [3])], [(some 0, [5])]] 0 1 1
    (by unfold ValidAssign; decide) (by unfold NodupSites; decide) (by decide)
    (by decide) (by decide) (by decide) (by decide)).2.2.2.2 0 (by decide)
